import Mathlib

/-!
Verification of the multimodal hybrid-search ranking engine of the
AI_du_lich_quoc_gia repository (files `src/database/tourism_collection_dao.py`
and `src/database/tourism_dao.py`).

The fusion core of `TourismMultimodalDAO.hybrid_search` is a pure computation
over the two formatted result lists, so it is embedded directly:

* a formatted search hit (`_format_results`) becomes `SearchResult`;
* the Python dict `merged` becomes an association list with Python dict
  semantics: assignment to an existing key replaces the value in place
  (keeping the key's original insertion position), assignment to a fresh key
  appends at the end, and iteration (`merged.values()`) is insertion order;
* `sorted(..., key=lambda x: x["combined_score"], reverse=True)` is Python's
  Timsort, which is stable, with equal elements kept in their original
  relative order even when `reverse=True`; a stable sort is extensionally
  determined by the ordering and the input order, so it is embedded as
  `List.insertionSort` with the decidable relation `fusedGE` (descending
  combined score), which is stable for this total preorder.

Floats are modelled as rationals.
-/

/-- One formatted search hit, as produced by
`TourismMultimodalDAO._format_results`: the requested output fields plus the
raw `distance` and the normalized `score = 1 / (1 + distance)`. -/
structure SearchResult where
  id : Int
  location : String
  type : String
  description : String
  image_url : String
  price : ℚ
  distance : ℚ
  score : ℚ
deriving DecidableEq

/-- Score normalization applied by `_format_results` in both DAO classes:
`score = 1 / (1 + hit.distance)`. -/
def normalizeScore (distance : ℚ) : ℚ := 1 / (1 + distance)

/-- One value of the `merged` dict built by `hybrid_search`: the spread
`{**result, ...}` keeps all fields of the contributing search hit (`base`)
and adds the `text_score`, `image_score` and `combined_score` keys. -/
structure FusedResult where
  base : SearchResult
  text_score : ℚ
  image_score : ℚ
  combined_score : ℚ
deriving DecidableEq

/-- Python dict lookup `merged[k]` / `k in merged`. -/
def dictGet (k : Int) : List (Int × FusedResult) → Option FusedResult
  | [] => none
  | (k', v) :: rest => if k' = k then some v else dictGet k rest

/-- Python dict assignment `merged[k] = v`: replaces the value of an existing
key in place (the key keeps its original insertion position), otherwise
appends the new key at the end. -/
def dictSet (k : Int) (v : FusedResult) : List (Int × FusedResult) → List (Int × FusedResult)
  | [] => [(k, v)]
  | (k', v') :: rest => if k' = k then (k, v) :: rest else (k', v') :: dictSet k v rest

/-- In-place mutation of the entry of an existing key
(`merged[k]["image_score"] = ...; merged[k]["combined_score"] += ...`). -/
def dictModify (k : Int) (f : FusedResult → FusedResult) :
    List (Int × FusedResult) → List (Int × FusedResult)
  | [] => []
  | (k', v) :: rest => if k' = k then (k', f v) :: rest else (k', v) :: dictModify k f rest

/-- Entry created for a text hit in the first merge loop of `hybrid_search`:
`text_score = score`, `image_score = 0`, `combined_score = score * text_weight`. -/
def textEntry (tw : ℚ) (r : SearchResult) : FusedResult :=
  { base := r, text_score := r.score, image_score := 0, combined_score := r.score * tw }

/-- Entry created for an image hit whose id is absent from `merged`:
`text_score = 0`, `image_score = score`, `combined_score = score * image_weight`. -/
def imageEntry (iw : ℚ) (r : SearchResult) : FusedResult :=
  { base := r, text_score := 0, image_score := r.score, combined_score := r.score * iw }

/-- Update applied to the existing entry when an image hit's id is already in
`merged`: overwrite `image_score`, add `score * image_weight` to
`combined_score`, keep `text_score` and the display fields. -/
def imageUpdate (iw : ℚ) (r : SearchResult) (e : FusedResult) : FusedResult :=
  { e with image_score := r.score, combined_score := e.combined_score + r.score * iw }

/-- One iteration of the first merge loop (`for result in text_results`). -/
def textStep (tw : ℚ) (m : List (Int × FusedResult)) (r : SearchResult) :
    List (Int × FusedResult) :=
  dictSet r.id (textEntry tw r) m

/-- One iteration of the second merge loop (`for result in image_results`):
if the id is already present, mutate the entry, else insert a fresh one. -/
def imageStep (iw : ℚ) (m : List (Int × FusedResult)) (r : SearchResult) :
    List (Int × FusedResult) :=
  if (dictGet r.id m).isSome then dictModify r.id (imageUpdate iw r) m
  else dictSet r.id (imageEntry iw r) m

/-- The `merged` dict after both merge loops of `hybrid_search`, keyed by id,
in insertion order. -/
def mergePass (trs irs : List SearchResult) (tw iw : ℚ) : List (Int × FusedResult) :=
  irs.foldl (imageStep iw) (trs.foldl (textStep tw) [])

/-- Descending order of `combined_score`, the key of the final
`sorted(..., reverse=True)` call. -/
def fusedGE (a b : FusedResult) : Prop := b.combined_score ≤ a.combined_score

instance : DecidableRel fusedGE := fun a b =>
  inferInstanceAs (Decidable (b.combined_score ≤ a.combined_score))

instance : IsTotal FusedResult fusedGE :=
  ⟨fun a b => le_total b.combined_score a.combined_score⟩

instance : IsTrans FusedResult fusedGE :=
  ⟨fun _ _ _ hab hbc => le_trans hbc hab⟩

/-- The fused ranking before truncation: `merged.values()` (insertion order)
stably sorted by combined score descending. -/
def hybridRank (trs irs : List SearchResult) (tw iw : ℚ) : List FusedResult :=
  List.insertionSort fusedGE ((mergePass trs irs tw iw).map Prod.snd)

/-- The fusion step of `hybrid_search`, from the two formatted single-modality
result lists to the final ranked list: merge, sort descending, truncate to
`top_k` (`[:top_k]`). -/
def hybridFuse (trs irs : List SearchResult) (tw iw : ℚ) (k : ℕ) : List FusedResult :=
  (hybridRank trs irs tw iw).take k

/-- Key list of the merge dict, in insertion order. -/
def keysOf (m : List (Int × FusedResult)) : List Int := m.map Prod.fst

theorem dictGet_dictSet_self (k : Int) (v : FusedResult) (m : List (Int × FusedResult)) :
    dictGet k (dictSet k v m) = some v := by
  induction m with
  | nil => simp [dictGet, dictSet]
  | cons p rest ih =>
    obtain ⟨k', v'⟩ := p
    by_cases h : k' = k
    · subst h; simp [dictGet, dictSet]
    · simp [dictGet, dictSet, h, ih]

theorem dictGet_dictSet_ne {k' k : Int} (h : k' ≠ k) (v : FusedResult)
    (m : List (Int × FusedResult)) : dictGet k (dictSet k' v m) = dictGet k m := by
  induction m with
  | nil => simp [dictGet, dictSet, h]
  | cons p rest ih =>
    obtain ⟨k₀, v₀⟩ := p
    by_cases h0 : k₀ = k'
    · subst h0; simp [dictGet, dictSet, h]
    · by_cases h1 : k₀ = k
      · subst h1; simp [dictGet, dictSet, h0]
      · simp [dictGet, dictSet, h0, h1, ih]

theorem dictGet_dictModify_self (k : Int) (f : FusedResult → FusedResult)
    (m : List (Int × FusedResult)) : dictGet k (dictModify k f m) = (dictGet k m).map f := by
  induction m with
  | nil => simp [dictGet, dictModify]
  | cons p rest ih =>
    obtain ⟨k₀, v₀⟩ := p
    by_cases h : k₀ = k
    · subst h; simp [dictGet, dictModify]
    · simp [dictGet, dictModify, h, ih]

theorem dictGet_dictModify_ne {k' k : Int} (h : k' ≠ k) (f : FusedResult → FusedResult)
    (m : List (Int × FusedResult)) : dictGet k (dictModify k' f m) = dictGet k m := by
  induction m with
  | nil => simp [dictGet, dictModify]
  | cons p rest ih =>
    obtain ⟨k₀, v₀⟩ := p
    by_cases h0 : k₀ = k'
    · subst h0; simp [dictGet, dictModify, h]
    · by_cases h1 : k₀ = k
      · subst h1; simp [dictGet, dictModify, h0]
      · simp [dictGet, dictModify, h0, h1, ih]

theorem dictGet_isSome_iff (k : Int) (m : List (Int × FusedResult)) :
    (dictGet k m).isSome = true ↔ k ∈ keysOf m := by
  induction m with
  | nil => simp [dictGet, keysOf]
  | cons p rest ih =>
    obtain ⟨k₀, v₀⟩ := p
    by_cases h : k₀ = k
    · subst h; simp [dictGet, keysOf]
    · simp [dictGet, keysOf, h, Ne.symm h, ih]

/-- Last element of a list of hits, with default `d` (used to describe which
occurrence of a duplicated id "wins"). -/
def lastRecD (d : SearchResult) : List SearchResult → SearchResult
  | [] => d
  | r :: rest => lastRecD r rest

/-- Score of the last hit of a list, with default `d`. -/
def lastScoreD (d : ℚ) : List SearchResult → ℚ
  | [] => d
  | r :: rest => lastScoreD r.score rest

/-- Effect of the whole text loop on one key: the entry is the `textEntry` of
the last occurrence of that id in the text list (Python dict assignment
overwrites), or the previous entry if the id does not occur. -/
theorem dictGet_textFold (tw : ℚ) (k : Int) :
    ∀ (trs : List SearchResult) (m : List (Int × FusedResult)),
      dictGet k (trs.foldl (textStep tw) m) =
        match trs.filter (fun r => r.id == k) with
        | [] => dictGet k m
        | r :: rest => some (textEntry tw (lastRecD r rest)) := by
  intro trs
  induction trs with
  | nil => intro m; rfl
  | cons r0 rest ih =>
    intro m
    rw [List.foldl_cons, ih]
    by_cases h : r0.id = k
    · have hf : (r0 :: rest).filter (fun r => r.id == k) =
          r0 :: rest.filter (fun r => r.id == k) := by
        simp [List.filter_cons, h]
      rw [hf]
      cases hrest : rest.filter (fun r => r.id == k) with
      | nil =>
        show dictGet k (textStep tw m r0) = some (textEntry tw (lastRecD r0 []))
        unfold textStep
        rw [h, dictGet_dictSet_self]
        rfl
      | cons r1 t =>
        show some (textEntry tw (lastRecD r1 t)) = some (textEntry tw (lastRecD r0 (r1 :: t)))
        rfl
    · have hf : (r0 :: rest).filter (fun r => r.id == k) =
          rest.filter (fun r => r.id == k) := by
        simp [List.filter_cons, h]
      rw [hf]
      cases hrest : rest.filter (fun r => r.id == k) with
      | nil =>
        show dictGet k (textStep tw m r0) = dictGet k m
        unfold textStep
        exact dictGet_dictSet_ne h _ m
      | cons r1 t => rfl

/-- Effect of the whole image loop on a key that is already present: the
display fields and `text_score` are kept, `image_score` is overwritten by each
occurrence (so the last occurrence's score remains), and `combined_score`
gains `score * image_weight` from every occurrence of the id in the image
list. -/
theorem dictGet_imageFold_present (iw : ℚ) (k : Int) :
    ∀ (irs : List SearchResult) (m : List (Int × FusedResult)) (e : FusedResult),
      dictGet k m = some e →
      dictGet k (irs.foldl (imageStep iw) m) =
        some { e with
               image_score := lastScoreD e.image_score (irs.filter (fun r => r.id == k)),
               combined_score := e.combined_score +
                 ((irs.filter (fun r => r.id == k)).map SearchResult.score).sum * iw } := by
  intro irs
  induction irs with
  | nil =>
    intro m e he
    simp only [List.foldl_nil, List.filter_nil, List.map_nil, List.sum_nil, zero_mul, add_zero]
    rw [he]
    rfl
  | cons r0 rest ih =>
    intro m e he
    rw [List.foldl_cons]
    by_cases h : r0.id = k
    · have hstep : imageStep iw m r0 = dictModify r0.id (imageUpdate iw r0) m := by
        unfold imageStep
        rw [h, he]
        rfl
      have he' : dictGet k (imageStep iw m r0) = some (imageUpdate iw r0 e) := by
        rw [hstep, h, dictGet_dictModify_self, he]
        rfl
      rw [ih _ _ he']
      have hf : (r0 :: rest).filter (fun r => r.id == k) =
          r0 :: rest.filter (fun r => r.id == k) := by
        simp [List.filter_cons, h]
      rw [hf]
      obtain ⟨b, ts, isc, cs⟩ := e
      simp only [imageUpdate, lastScoreD, List.map_cons, List.sum_cons, Option.some.injEq,
        FusedResult.mk.injEq, true_and]
      ring
    · have he' : dictGet k (imageStep iw m r0) = some e := by
        unfold imageStep
        by_cases hs : (dictGet r0.id m).isSome
        · rw [if_pos hs, dictGet_dictModify_ne h, he]
        · rw [if_neg hs, dictGet_dictSet_ne h, he]
      rw [ih _ _ he']
      have hf : (r0 :: rest).filter (fun r => r.id == k) =
          rest.filter (fun r => r.id == k) := by
        simp [List.filter_cons, h]
      rw [hf]

/-- Effect of the whole image loop on a key that is absent before the loop:
no occurrence leaves it absent; otherwise the first occurrence inserts an
`imageEntry` (display fields from that first hit, `text_score = 0`) and every
occurrence contributes `score * image_weight` to `combined_score`, while
`image_score` ends at the last occurrence's score. -/
theorem dictGet_imageFold_absent (iw : ℚ) (k : Int) :
    ∀ (irs : List SearchResult) (m : List (Int × FusedResult)),
      dictGet k m = none →
      dictGet k (irs.foldl (imageStep iw) m) =
        match irs.filter (fun r => r.id == k) with
        | [] => none
        | r :: rest => some { base := r, text_score := 0,
                              image_score := lastScoreD r.score rest,
                              combined_score := (r.score + (rest.map SearchResult.score).sum) * iw } := by
  intro irs
  induction irs with
  | nil => intro m he; simpa using he
  | cons r0 rest ih =>
    intro m he
    rw [List.foldl_cons]
    by_cases h : r0.id = k
    · have hstep : imageStep iw m r0 = dictSet r0.id (imageEntry iw r0) m := by
        unfold imageStep
        rw [h, he]
        rfl
      have he' : dictGet k (imageStep iw m r0) = some (imageEntry iw r0) := by
        rw [hstep, h, dictGet_dictSet_self]
      rw [dictGet_imageFold_present iw k rest _ _ he']
      have hf : (r0 :: rest).filter (fun r => r.id == k) =
          r0 :: rest.filter (fun r => r.id == k) := by
        simp [List.filter_cons, h]
      rw [hf]
      simp only [imageEntry, Option.some.injEq, FusedResult.mk.injEq, true_and]
      ring
    · have he' : dictGet k (imageStep iw m r0) = none := by
        unfold imageStep
        by_cases hs : (dictGet r0.id m).isSome
        · rw [if_pos hs, dictGet_dictModify_ne h, he]
        · rw [if_neg hs, dictGet_dictSet_ne h, he]
      rw [ih _ he']
      have hf : (r0 :: rest).filter (fun r => r.id == k) =
          rest.filter (fun r => r.id == k) := by
        simp [List.filter_cons, h]
      rw [hf]

theorem filter_id_eq_nil {k : Int} {l : List SearchResult}
    (h : k ∉ l.map SearchResult.id) : l.filter (fun r => r.id == k) = [] := by
  rw [List.filter_eq_nil_iff]
  intro a ha hc
  exact h (List.mem_map.mpr ⟨a, ha, by simpa using hc⟩)

theorem filter_id_of_nodup {l : List SearchResult} {r : SearchResult}
    (hn : (l.map SearchResult.id).Nodup) (hr : r ∈ l) :
    l.filter (fun x => x.id == r.id) = [r] := by
  induction l with
  | nil => cases hr
  | cons a rest ih =>
    rw [List.map_cons, List.nodup_cons] at hn
    rcases List.mem_cons.mp hr with h | h
    · subst h
      have h1 : (r :: rest).filter (fun x => x.id == r.id) =
          r :: rest.filter (fun x => x.id == r.id) := by
        simp [List.filter_cons]
      rw [h1, filter_id_eq_nil hn.1]
    · have hne : a.id ≠ r.id := by
        intro he
        exact hn.1 (he ▸ List.mem_map_of_mem SearchResult.id h)
      have h1 : (a :: rest).filter (fun x => x.id == r.id) =
          rest.filter (fun x => x.id == r.id) := by
        simp [List.filter_cons, hne]
      rw [h1]
      exact ih hn.2 h

/-- C1: in `hybrid_search`, for an id present in both result lists (each list
having pairwise distinct ids), the fused entry carries the text score, the
image score, and exactly `text_score * text_weight + image_score * image_weight`
as combined score, with display fields from the text hit. -/
theorem fusion_additivity (trs irs : List SearchResult) (tw iw : ℚ)
    (rt ri : SearchResult)
    (hT : (trs.map SearchResult.id).Nodup) (hI : (irs.map SearchResult.id).Nodup)
    (ht : rt ∈ trs) (hi : ri ∈ irs) (hid : ri.id = rt.id) :
    dictGet rt.id (mergePass trs irs tw iw) =
      some { base := rt, text_score := rt.score, image_score := ri.score,
             combined_score := rt.score * tw + ri.score * iw } := by
  unfold mergePass
  have htf := dictGet_textFold tw rt.id trs []
  rw [filter_id_of_nodup hT ht] at htf
  have hif : irs.filter (fun x => x.id == rt.id) = [ri] := by
    rw [← hid]
    exact filter_id_of_nodup hI hi
  rw [dictGet_imageFold_present iw rt.id irs _ _ htf, hif]
  simp only [textEntry, lastRecD, lastScoreD, List.map_cons, List.map_nil, List.sum_cons,
    List.sum_nil, Option.some.injEq, FusedResult.mk.injEq, true_and]
  ring

/-- C1 witness: concrete two-list instance of the additivity theorem. -/
theorem fusion_additivity_witness :
    dictGet 2 (mergePass
      [⟨1, "L1", "t", "d", "u", 0, 0, 9/10⟩, ⟨2, "L2", "t", "d", "u", 0, 0, 2/5⟩]
      [⟨2, "L2", "t", "d", "u", 0, 0, 4/5⟩, ⟨3, "L3", "t", "d", "u", 0, 0, 19/20⟩]
      (7/10) (3/10)) =
      some { base := ⟨2, "L2", "t", "d", "u", 0, 0, 2/5⟩, text_score := 2/5,
             image_score := 4/5, combined_score := (2/5) * (7/10) + (4/5) * (3/10) } := by
  exact fusion_additivity
    [⟨1, "L1", "t", "d", "u", 0, 0, 9/10⟩, ⟨2, "L2", "t", "d", "u", 0, 0, 2/5⟩]
    [⟨2, "L2", "t", "d", "u", 0, 0, 4/5⟩, ⟨3, "L3", "t", "d", "u", 0, 0, 19/20⟩]
    (7/10) (3/10)
    ⟨2, "L2", "t", "d", "u", 0, 0, 2/5⟩ ⟨2, "L2", "t", "d", "u", 0, 0, 4/5⟩
    (by decide) (by decide) (by simp) (by simp) rfl

/-- C8: the score normalization `score = 1 / (1 + distance)` used by every
search path (`_format_results` in both DAO classes) maps any distance
`d ≥ 0` into `(0, 1]`, is exactly `1` at `d = 0`, is strictly decreasing,
and its denominator `1 + d` is never zero. -/
theorem score_normalization_bounds (d : ℚ) (hd : 0 ≤ d) :
    0 < normalizeScore d ∧ normalizeScore d ≤ 1 ∧ normalizeScore 0 = 1 ∧
      (∀ d₂ : ℚ, d < d₂ → normalizeScore d₂ < normalizeScore d) ∧ 1 + d ≠ 0 := by
  have hpos : 0 < 1 + d := by linarith
  refine ⟨?_, ?_, ?_, ?_, ?_⟩
  · exact div_pos one_pos hpos
  · rw [normalizeScore, div_le_one hpos]
    linarith
  · norm_num [normalizeScore]
  · intro d₂ hlt
    exact one_div_lt_one_div_of_lt hpos (by linarith)
  · exact ne_of_gt hpos

/-- C8 witness: the bounds at distance `3`, with strict decrease towards
distance `5`. -/
theorem score_normalization_bounds_witness :
    0 < normalizeScore 3 ∧ normalizeScore 3 ≤ 1 ∧ normalizeScore 0 = 1 ∧
      normalizeScore 5 < normalizeScore 3 ∧ (1 : ℚ) + 3 ≠ 0 := by
  obtain ⟨h1, h2, h3, h4, h5⟩ := score_normalization_bounds 3 (by norm_num)
  exact ⟨h1, h2, h3, h4 5 (by norm_num), h5⟩

/-- C5 counterexample: with an empty text list, an image list carrying id `5`
twice (scores `1/2` then `1/4`) and `image_weight = 1`, the merged entry's
combined score is `1/2 + 1/4 = 3/4`: the second occurrence is *added* on top
of the first, whereas a single-pass mapping build from the last occurrence
alone would give `1/4`. -/
theorem fusion_image_duplicate_accumulates :
    (dictGet 5 (mergePass []
      [⟨5, "L", "t", "d", "u", 0, 1, 1/2⟩, ⟨5, "L", "t", "d", "u", 0, 3, 1/4⟩] 1 1)).map
        FusedResult.combined_score = some (3/4) ∧ ((3 : ℚ)/4) ≠ 1/4 := by
  constructor
  · unfold mergePass
    rw [dictGet_imageFold_absent 1 5
      [⟨5, "L", "t", "d", "u", 0, 1, 1/2⟩, ⟨5, "L", "t", "d", "u", 0, 3, 1/4⟩]
      (List.foldl (textStep 1) [] []) rfl]
    norm_num [List.filter_cons, lastScoreD]
  · norm_num

/-- C5 (amended): a duplicated id *within the text list* follows last-seen
overwrite semantics: the merged entry is the `textEntry` of the last
occurrence (here stated for ids untouched by the image pass). A duplicated id
*within the image list* does not: the display fields and, through
`image_score`'s default, the first occurrence found the entry, `image_score`
ends at the last occurrence's score, and `combined_score` accumulates
`score * image_weight` from every occurrence (here stated for ids absent from
the text list). -/
theorem fusion_duplicate_semantics (trs irs : List SearchResult) (tw iw : ℚ) (k : Int) :
    (∀ r rest, trs.filter (fun x => x.id == k) = r :: rest →
      irs.filter (fun x => x.id == k) = [] →
      dictGet k (mergePass trs irs tw iw) = some (textEntry tw (lastRecD r rest)))
    ∧ (∀ r rest, trs.filter (fun x => x.id == k) = [] →
      irs.filter (fun x => x.id == k) = r :: rest →
      dictGet k (mergePass trs irs tw iw) =
        some { base := r, text_score := 0,
               image_score := lastScoreD r.score rest,
               combined_score := (r.score + (rest.map SearchResult.score).sum) * iw }) := by
  constructor
  · intro r rest hft hif
    have htf := dictGet_textFold tw k trs []
    rw [hft] at htf
    unfold mergePass
    rw [dictGet_imageFold_present iw k irs _ _ htf, hif]
    simp [lastScoreD, textEntry]
  · intro r rest hft hif
    have htf := dictGet_textFold tw k trs []
    rw [hft] at htf
    have h0 : dictGet k (trs.foldl (textStep tw) []) = none := htf
    unfold mergePass
    rw [dictGet_imageFold_absent iw k irs _ h0, hif]

/-- C5 witness: two text hits with the same id `7`; the merged entry is the
`textEntry` of the second (last) one. -/
theorem fusion_duplicate_semantics_witness :
    dictGet 7 (mergePass
      [⟨7, "a", "t", "d", "u", 0, 0, 1⟩, ⟨7, "b", "t", "d", "u", 0, 0, 1/2⟩] []
      (1/2) (1/3)) = some (textEntry (1/2) ⟨7, "b", "t", "d", "u", 0, 0, 1/2⟩) := by
  have h := (fusion_duplicate_semantics
    [⟨7, "a", "t", "d", "u", 0, 0, 1⟩, ⟨7, "b", "t", "d", "u", 0, 0, 1/2⟩] []
    (1/2) (1/3) 7).1
    ⟨7, "a", "t", "d", "u", 0, 0, 1⟩ [⟨7, "b", "t", "d", "u", 0, 0, 1/2⟩]
    (by simp [List.filter_cons]) rfl
  exact h

/-- C2 counterexample: `hybrid_search` contains no weight check at all. With
`text_weight = -1` the fusion silently returns an ordinary ranked list whose
combined score is negative, instead of failing with an `InvalidWeightError`. -/
theorem fusion_negative_weight_accepted :
    hybridFuse [⟨1, "L", "t", "d", "u", 0, 0, 1⟩] [] (-1) (3/10) 5 =
      [{ base := ⟨1, "L", "t", "d", "u", 0, 0, 1⟩, text_score := 1, image_score := 0,
         combined_score := -1 }] := by
  norm_num [hybridFuse, hybridRank, mergePass, textStep, dictGet, dictSet, textEntry,
    List.insertionSort, List.orderedInsert]

/-- C2 (amended): `hybrid_search` performs no validation of the fusion
weights: the merge is total for arbitrary (including negative) weights, every
id from either list always gets an entry, and with `image_weight = 0` an id
found only by the image search is still included, contributing `0` to the
combined score. -/
theorem fusion_no_weight_validation (trs irs : List SearchResult) (tw iw : ℚ) :
    (∀ r ∈ trs, (dictGet r.id (mergePass trs irs tw iw)).isSome = true)
    ∧ (∀ r ∈ irs, (dictGet r.id (mergePass trs irs tw iw)).isSome = true)
    ∧ (∀ r ∈ irs, r.id ∉ trs.map SearchResult.id →
        (dictGet r.id (mergePass trs irs tw 0)).map FusedResult.combined_score = some 0) := by
  refine ⟨?_, ?_, ?_⟩
  · intro r hr
    have hmem : r ∈ trs.filter (fun x => x.id == r.id) := List.mem_filter.mpr ⟨hr, by simp⟩
    unfold mergePass
    cases hft : trs.filter (fun x => x.id == r.id) with
    | nil => rw [hft] at hmem; cases hmem
    | cons a l =>
      have htf := dictGet_textFold tw r.id trs []
      rw [hft] at htf
      rw [dictGet_imageFold_present iw r.id irs _ _ htf]
      rfl
  · intro r hr
    unfold mergePass
    cases hg : dictGet r.id (trs.foldl (textStep tw) []) with
    | some e =>
      rw [dictGet_imageFold_present iw r.id irs _ _ hg]
      rfl
    | none =>
      rw [dictGet_imageFold_absent iw r.id irs _ hg]
      have hmem : r ∈ irs.filter (fun x => x.id == r.id) := List.mem_filter.mpr ⟨hr, by simp⟩
      cases hif : irs.filter (fun x => x.id == r.id) with
      | nil => rw [hif] at hmem; cases hmem
      | cons a l => rfl
  · intro r hr hnot
    have h0 : dictGet r.id (trs.foldl (textStep tw) []) = none := by
      have htf := dictGet_textFold tw r.id trs []
      rw [filter_id_eq_nil hnot] at htf
      exact htf
    unfold mergePass
    rw [dictGet_imageFold_absent 0 r.id irs _ h0]
    have hmem : r ∈ irs.filter (fun x => x.id == r.id) := List.mem_filter.mpr ⟨hr, by simp⟩
    cases hif : irs.filter (fun x => x.id == r.id) with
    | nil => rw [hif] at hmem; cases hmem
    | cons a l => simp

/-- C2 witness: an id found only by the image search, under zero image
weight, is still present in the merged mapping with combined score `0`. -/
theorem fusion_no_weight_validation_witness :
    (dictGet 5 (mergePass [] [⟨5, "L", "t", "d", "u", 0, 1, 1/2⟩] (7/10) 0)).map
      FusedResult.combined_score = some 0 := by
  exact (fusion_no_weight_validation [] [⟨5, "L", "t", "d", "u", 0, 1, 1/2⟩] (7/10) 0).2.2
    ⟨5, "L", "t", "d", "u", 0, 1, 1/2⟩ (List.mem_singleton.mpr rfl) (by simp)

theorem keysOf_append (m : List (Int × FusedResult)) (p : Int × FusedResult) :
    keysOf (m ++ [p]) = keysOf m ++ [p.1] := by
  simp [keysOf]

theorem dictGet_eq_none_of_not_mem {k : Int} {m : List (Int × FusedResult)}
    (h : k ∉ keysOf m) : dictGet k m = none := by
  cases hg : dictGet k m with
  | none => rfl
  | some e =>
    exact absurd ((dictGet_isSome_iff k m).mp (by rw [hg]; rfl)) h

theorem dictSet_append_of_not_mem {k : Int} (v : FusedResult) :
    ∀ {m : List (Int × FusedResult)}, k ∉ keysOf m → dictSet k v m = m ++ [(k, v)] := by
  intro m
  induction m with
  | nil => intro h; rfl
  | cons p rest ih =>
    intro h
    obtain ⟨k₀, v₀⟩ := p
    have hne : k₀ ≠ k := by
      intro he
      exact h (by simp [keysOf, he])
    have hrest : k ∉ keysOf rest := by
      intro hm
      exact h (by simp [keysOf] at hm ⊢; exact Or.inr hm)
    simp [dictSet, hne, ih hrest]

/-- When all ids of the text list are fresh and pairwise distinct, the text
loop just appends its entries in list order. -/
theorem textFold_append_of_disjoint (tw : ℚ) :
    ∀ (trs : List SearchResult) (m : List (Int × FusedResult)),
      (∀ r ∈ trs, r.id ∉ keysOf m) → (trs.map SearchResult.id).Nodup →
      trs.foldl (textStep tw) m = m ++ trs.map (fun r => (r.id, textEntry tw r)) := by
  intro trs
  induction trs with
  | nil => intro m _ _; simp
  | cons r0 rest ih =>
    intro m hd hn
    rw [List.map_cons, List.nodup_cons] at hn
    have hstep : textStep tw m r0 = m ++ [(r0.id, textEntry tw r0)] :=
      dictSet_append_of_not_mem _ (hd r0 (List.mem_cons_self r0 rest))
    rw [List.foldl_cons, hstep]
    rw [ih (m ++ [(r0.id, textEntry tw r0)]) ?_ hn.2]
    · simp
    · intro r hr
      rw [keysOf_append]
      simp only [List.mem_append, List.mem_singleton]
      rintro (hin | hin)
      · exact hd r (List.mem_cons_of_mem r0 hr) hin
      · exact hn.1 (hin ▸ List.mem_map_of_mem SearchResult.id hr)

/-- When all ids of the image list are fresh and pairwise distinct, the image
loop just appends its entries in list order. -/
theorem imageFold_append_of_disjoint (iw : ℚ) :
    ∀ (irs : List SearchResult) (m : List (Int × FusedResult)),
      (∀ r ∈ irs, r.id ∉ keysOf m) → (irs.map SearchResult.id).Nodup →
      irs.foldl (imageStep iw) m = m ++ irs.map (fun r => (r.id, imageEntry iw r)) := by
  intro irs
  induction irs with
  | nil => intro m _ _; simp
  | cons r0 rest ih =>
    intro m hd hn
    rw [List.map_cons, List.nodup_cons] at hn
    have hnone : dictGet r0.id m = none :=
      dictGet_eq_none_of_not_mem (hd r0 (List.mem_cons_self r0 rest))
    have hstep : imageStep iw m r0 = m ++ [(r0.id, imageEntry iw r0)] := by
      unfold imageStep
      rw [hnone]
      exact dictSet_append_of_not_mem _ (hd r0 (List.mem_cons_self r0 rest))
    rw [List.foldl_cons, hstep]
    rw [ih (m ++ [(r0.id, imageEntry iw r0)]) ?_ hn.2]
    · simp
    · intro r hr
      rw [keysOf_append]
      simp only [List.mem_append, List.mem_singleton]
      rintro (hin | hin)
      · exact hd r (List.mem_cons_of_mem r0 hr) hin
      · exact hn.1 (hin ▸ List.mem_map_of_mem SearchResult.id hr)

/-- C4: with pairwise distinct ids in each input list, an id found by exactly
one modality still enters the merged mapping, with the missing modality's
score recorded as `0` and the combined score equal to the present score times
that modality's weight; and with one list empty the fused output (assuming the
nonempty list arrives sorted by score descending, as the store returns it, and
a nonnegative weight) is exactly the other modality's weighted ranking
truncated to `k`. -/
theorem fusion_single_modality (trs irs : List SearchResult) (tw iw : ℚ) (k : ℕ)
    (hT : (trs.map SearchResult.id).Nodup) (hI : (irs.map SearchResult.id).Nodup) :
    (∀ rt ∈ trs, rt.id ∉ irs.map SearchResult.id →
      dictGet rt.id (mergePass trs irs tw iw) =
        some { base := rt, text_score := rt.score, image_score := 0,
               combined_score := rt.score * tw })
    ∧ (∀ ri ∈ irs, ri.id ∉ trs.map SearchResult.id →
      dictGet ri.id (mergePass trs irs tw iw) =
        some { base := ri, text_score := 0, image_score := ri.score,
               combined_score := ri.score * iw })
    ∧ (trs = [] → irs.Pairwise (fun a b => b.score ≤ a.score) → 0 ≤ iw →
      hybridFuse trs irs tw iw k = (irs.map (fun r => imageEntry iw r)).take k)
    ∧ (irs = [] → trs.Pairwise (fun a b => b.score ≤ a.score) → 0 ≤ tw →
      hybridFuse trs irs tw iw k = (trs.map (fun r => textEntry tw r)).take k) := by
  refine ⟨?_, ?_, ?_, ?_⟩
  · intro rt ht hnot
    have htf := dictGet_textFold tw rt.id trs []
    rw [filter_id_of_nodup hT ht] at htf
    unfold mergePass
    rw [dictGet_imageFold_present iw rt.id irs _ _ htf, filter_id_eq_nil hnot]
    simp [lastRecD, lastScoreD, textEntry]
  · intro ri hi hnot
    have h0 : dictGet ri.id (trs.foldl (textStep tw) []) = none := by
      have htf := dictGet_textFold tw ri.id trs []
      rw [filter_id_eq_nil hnot] at htf
      exact htf
    unfold mergePass
    rw [dictGet_imageFold_absent iw ri.id irs _ h0, filter_id_of_nodup hI hi]
    simp [lastScoreD]
  · intro he hs hw
    subst he
    have hm : mergePass [] irs tw iw = irs.map (fun r => (r.id, imageEntry iw r)) := by
      unfold mergePass
      rw [List.foldl_nil]
      exact imageFold_append_of_disjoint iw irs [] (by intro r _ h; cases h) hI
    have hvals : (mergePass [] irs tw iw).map Prod.snd = irs.map (fun r => imageEntry iw r) := by
      rw [hm, List.map_map]
      rfl
    have hsorted : List.Sorted fusedGE (irs.map (fun r => imageEntry iw r)) := by
      rw [List.Sorted, List.pairwise_map]
      refine hs.imp ?_
      intro a b hab
      exact mul_le_mul_of_nonneg_right hab hw
    unfold hybridFuse hybridRank
    rw [hvals, hsorted.insertionSort_eq]
  · intro he hs hw
    subst he
    have hm : mergePass trs [] tw iw = trs.map (fun r => (r.id, textEntry tw r)) := by
      unfold mergePass
      rw [List.foldl_nil]
      exact textFold_append_of_disjoint tw trs [] (by intro r _ h; cases h) hT
    have hvals : (mergePass trs [] tw iw).map Prod.snd = trs.map (fun r => textEntry tw r) := by
      rw [hm, List.map_map]
      rfl
    have hsorted : List.Sorted fusedGE (trs.map (fun r => textEntry tw r)) := by
      rw [List.Sorted, List.pairwise_map]
      refine hs.imp ?_
      intro a b hab
      exact mul_le_mul_of_nonneg_right hab hw
    unfold hybridFuse hybridRank
    rw [hvals, hsorted.insertionSort_eq]

/-- C4 witness: with an empty text list and one image hit, the fused output
is the weighted image entry. -/
theorem fusion_single_modality_witness :
    hybridFuse [] [⟨5, "L", "t", "d", "u", 0, 1, 1/2⟩] (7/10) (3/10) 1 =
      [imageEntry (3/10) ⟨5, "L", "t", "d", "u", 0, 1, 1/2⟩] := by
  have h := (fusion_single_modality [] [⟨5, "L", "t", "d", "u", 0, 1, 1/2⟩]
    (7/10) (3/10) 1 List.nodup_nil (by simp)).2.2.1 rfl (by simp) (by norm_num)
  rw [h]
  rfl

/-- Ids of a pass's hits that create fresh dict entries, in first-occurrence
order, given the keys `K` already present. -/
def newKeys (K : List Int) : List Int → List Int
  | [] => []
  | k :: ks => if k ∈ K then newKeys K ks else k :: newKeys (K ++ [k]) ks

theorem keysOf_dictSet (k : Int) (v : FusedResult) (m : List (Int × FusedResult)) :
    keysOf (dictSet k v m) = if k ∈ keysOf m then keysOf m else keysOf m ++ [k] := by
  induction m with
  | nil => simp [keysOf, dictSet]
  | cons p rest ih =>
    obtain ⟨k₀, v₀⟩ := p
    by_cases h : k₀ = k
    · subst h; simp [keysOf, dictSet]
    · have hred : dictSet k v ((k₀, v₀) :: rest) = (k₀, v₀) :: dictSet k v rest := by
        simp [dictSet, h]
      rw [hred]
      show k₀ :: keysOf (dictSet k v rest) = _
      rw [ih]
      by_cases h1 : k ∈ keysOf rest
      · rw [if_pos h1, if_pos (show k ∈ keysOf ((k₀, v₀) :: rest) from
          List.mem_cons_of_mem k₀ h1)]
        rfl
      · rw [if_neg h1, if_neg (show k ∉ keysOf ((k₀, v₀) :: rest) by
          simp only [keysOf, List.map_cons, List.mem_cons]
          rintro (he | hm)
          · exact h he.symm
          · exact h1 hm)]
        rfl

theorem keysOf_dictModify (k : Int) (f : FusedResult → FusedResult)
    (m : List (Int × FusedResult)) : keysOf (dictModify k f m) = keysOf m := by
  induction m with
  | nil => rfl
  | cons p rest ih =>
    obtain ⟨k₀, v₀⟩ := p
    by_cases h : k₀ = k
    · subst h; simp [keysOf, dictModify]
    · simp [keysOf, dictModify, h] at ih ⊢
      exact ih

theorem keysOf_textStep (tw : ℚ) (m : List (Int × FusedResult)) (r : SearchResult) :
    keysOf (textStep tw m r) =
      if r.id ∈ keysOf m then keysOf m else keysOf m ++ [r.id] :=
  keysOf_dictSet r.id (textEntry tw r) m

theorem keysOf_imageStep (iw : ℚ) (m : List (Int × FusedResult)) (r : SearchResult) :
    keysOf (imageStep iw m r) =
      if r.id ∈ keysOf m then keysOf m else keysOf m ++ [r.id] := by
  unfold imageStep
  by_cases h : r.id ∈ keysOf m
  · rw [if_pos ((dictGet_isSome_iff r.id m).mpr h), keysOf_dictModify, if_pos h]
  · rw [if_neg (fun hs => h ((dictGet_isSome_iff r.id m).mp hs)), keysOf_dictSet, if_neg h]

theorem keysOf_foldl_step
    (step : List (Int × FusedResult) → SearchResult → List (Int × FusedResult))
    (hstep : ∀ m r, keysOf (step m r) =
      if r.id ∈ keysOf m then keysOf m else keysOf m ++ [r.id]) :
    ∀ (rs : List SearchResult) (m : List (Int × FusedResult)),
      keysOf (rs.foldl step m) = keysOf m ++ newKeys (keysOf m) (rs.map SearchResult.id) := by
  intro rs
  induction rs with
  | nil => intro m; simp [newKeys]
  | cons r rest ih =>
    intro m
    rw [List.foldl_cons, ih (step m r), hstep m r, List.map_cons]
    by_cases h : r.id ∈ keysOf m
    · rw [if_pos h]
      show _ = keysOf m ++ newKeys (keysOf m) (r.id :: rest.map SearchResult.id)
      rw [newKeys, if_pos h]
    · rw [if_neg h]
      show _ = keysOf m ++ newKeys (keysOf m) (r.id :: rest.map SearchResult.id)
      rw [newKeys, if_neg h, List.append_assoc]
      rfl

theorem mem_append_newKeys (x : Int) :
    ∀ (l K : List Int), x ∈ K ++ newKeys K l ↔ x ∈ K ∨ x ∈ l := by
  intro l
  induction l with
  | nil => intro K; simp [newKeys]
  | cons k ks ih =>
    intro K
    by_cases h : k ∈ K
    · rw [newKeys, if_pos h, ih K]
      simp only [List.mem_cons]
      have hx : x = k → x ∈ K := fun he => he ▸ h
      tauto
    · rw [newKeys, if_neg h]
      have hre : K ++ k :: newKeys (K ++ [k]) ks = (K ++ [k]) ++ newKeys (K ++ [k]) ks := by
        simp
      rw [hre, ih (K ++ [k])]
      simp only [List.mem_append, List.mem_singleton, List.mem_cons]
      tauto

theorem nodup_append_newKeys :
    ∀ (l K : List Int), K.Nodup → (K ++ newKeys K l).Nodup := by
  intro l
  induction l with
  | nil => intro K h; simpa [newKeys] using h
  | cons k ks ih =>
    intro K h
    by_cases hk : k ∈ K
    · rw [newKeys, if_pos hk]
      exact ih K h
    · rw [newKeys, if_neg hk]
      have h2 := ih (K ++ [k]) (by simp [List.nodup_append, h, hk])
      rwa [List.append_assoc, List.singleton_append] at h2

/-- C6: the fused list of `hybrid_search` has length
`min(top_k, number of distinct ids across both input lists)`; in particular
`top_k = 0` gives an empty output, and two empty inputs give an empty output
rather than an error. -/
theorem fusion_truncation_length (trs irs : List SearchResult) (tw iw : ℚ) (k : ℕ) :
    (hybridFuse trs irs tw iw k).length =
      min k ((trs.map SearchResult.id ++ irs.map SearchResult.id).toFinset.card)
    ∧ hybridFuse trs irs tw iw 0 = []
    ∧ hybridFuse [] [] tw iw k = [] := by
  refine ⟨?_, ?_, ?_⟩
  · have hM : keysOf (trs.foldl (textStep tw) []) = newKeys [] (trs.map SearchResult.id) := by
      rw [keysOf_foldl_step (textStep tw) (keysOf_textStep tw) trs []]
      rfl
    have hkeys : keysOf (mergePass trs irs tw iw) =
        newKeys [] (trs.map SearchResult.id) ++
          newKeys (newKeys [] (trs.map SearchResult.id)) (irs.map SearchResult.id) := by
      unfold mergePass
      rw [keysOf_foldl_step (imageStep iw) (keysOf_imageStep iw) irs _, hM]
    have hnd : (keysOf (mergePass trs irs tw iw)).Nodup := by
      rw [hkeys]
      refine nodup_append_newKeys _ _ ?_
      have h0 := nodup_append_newKeys (trs.map SearchResult.id) [] List.nodup_nil
      simpa using h0
    have hmem : ∀ x, x ∈ keysOf (mergePass trs irs tw iw) ↔
        x ∈ trs.map SearchResult.id ++ irs.map SearchResult.id := by
      intro x
      rw [hkeys, mem_append_newKeys, List.mem_append]
      have hKT : x ∈ newKeys [] (trs.map SearchResult.id) ↔ x ∈ trs.map SearchResult.id := by
        have h0 := mem_append_newKeys x (trs.map SearchResult.id) []
        simpa using h0
      rw [hKT]
    have hfin : (keysOf (mergePass trs irs tw iw)).toFinset =
        (trs.map SearchResult.id ++ irs.map SearchResult.id).toFinset := by
      ext x
      simp only [List.mem_toFinset]
      exact hmem x
    have hlen : (mergePass trs irs tw iw).length =
        (trs.map SearchResult.id ++ irs.map SearchResult.id).toFinset.card := by
      rw [← hfin, List.toFinset_card_of_nodup hnd]
      exact (List.length_map _ _).symm
    unfold hybridFuse hybridRank
    rw [List.length_take, List.length_insertionSort, List.length_map, hlen]
  · unfold hybridFuse
    exact List.take_zero _
  · unfold hybridFuse hybridRank mergePass
    simp

theorem filter_score_orderedInsert (s : ℚ) (x : FusedResult) :
    ∀ l : List FusedResult,
      (List.orderedInsert fusedGE x l).filter (fun e => decide (e.combined_score = s)) =
        if x.combined_score = s
        then x :: l.filter (fun e => decide (e.combined_score = s))
        else l.filter (fun e => decide (e.combined_score = s)) := by
  intro l
  induction l with
  | nil =>
    by_cases h : x.combined_score = s <;> simp [List.orderedInsert, h]
  | cons b m ih =>
    show (if fusedGE x b then x :: b :: m else b :: List.orderedInsert fusedGE x m).filter _ = _
    by_cases hle : fusedGE x b
    · rw [if_pos hle]
      by_cases h : x.combined_score = s <;> simp [List.filter_cons, h]
    · rw [if_neg hle]
      have hbx : x.combined_score < b.combined_score :=
        lt_of_not_le (show ¬ b.combined_score ≤ x.combined_score from hle)
      by_cases h : x.combined_score = s
      · have hb : b.combined_score ≠ s := fun hbs => absurd (h ▸ hbs.symm ▸ hbx) (lt_irrefl _)
        simp [List.filter_cons, h, hb, ih]
      · simp only [List.filter_cons, ih, if_neg h]

/-- The sort at the end of `hybrid_search` is stable: for every score value,
the subsequence of entries carrying that combined score is unchanged by the
sort. -/
theorem filter_score_insertionSort (s : ℚ) :
    ∀ l : List FusedResult,
      (List.insertionSort fusedGE l).filter (fun e => decide (e.combined_score = s)) =
        l.filter (fun e => decide (e.combined_score = s)) := by
  intro l
  induction l with
  | nil => rfl
  | cons x m ih =>
    show (List.orderedInsert fusedGE x (List.insertionSort fusedGE m)).filter _ = _
    rw [filter_score_orderedInsert s x _, ih]
    by_cases h : x.combined_score = s <;> simp [List.filter_cons, h]

/-- First-occurrence semantics of `newKeys` on duplicate-free id lists. -/
theorem newKeys_of_nodup :
    ∀ (l K : List Int), l.Nodup → newKeys K l = l.filter (fun x => decide (x ∉ K)) := by
  intro l
  induction l with
  | nil => intro K _; rfl
  | cons k ks ih =>
    intro K hn
    rw [List.nodup_cons] at hn
    by_cases h : k ∈ K
    · rw [newKeys, if_pos h, ih K hn.2]
      simp [List.filter_cons, h]
    · rw [newKeys, if_neg h, ih (K ++ [k]) hn.2]
      have hcong : ks.filter (fun x => decide (x ∉ K ++ [k])) =
          ks.filter (fun x => decide (x ∉ K)) := by
        refine List.filter_congr ?_
        intro x hx
        have hxk : x ≠ k := fun he => hn.1 (he ▸ hx)
        simp [List.mem_append, hxk]
      rw [hcong]
      simp [List.filter_cons, h]

/-- Keys of the merged mapping, in insertion order, for arbitrary inputs. -/
theorem keysOf_mergePass (trs irs : List SearchResult) (tw iw : ℚ) :
    keysOf (mergePass trs irs tw iw) =
      newKeys [] (trs.map SearchResult.id) ++
        newKeys (newKeys [] (trs.map SearchResult.id)) (irs.map SearchResult.id) := by
  unfold mergePass
  rw [keysOf_foldl_step (imageStep iw) (keysOf_imageStep iw) irs _,
    keysOf_foldl_step (textStep tw) (keysOf_textStep tw) trs []]
  rfl

/-- C3: the output of `hybrid_search` is sorted by combined score descending,
the sort is stable (entries of equal combined score keep the insertion order
of the merged mapping), and — with duplicate-free id lists — that insertion
order is: all text-pass ids in text rank order, then the image-only ids in
image rank order. Together with the function being deterministic by
construction, this pins the tie-breaking exactly. -/
theorem fusion_sorted_stable (trs irs : List SearchResult) (tw iw : ℚ) (k : ℕ) :
    List.Sorted fusedGE (hybridFuse trs irs tw iw k)
    ∧ (∀ s : ℚ, (hybridRank trs irs tw iw).filter (fun e => decide (e.combined_score = s)) =
        ((mergePass trs irs tw iw).map Prod.snd).filter (fun e => decide (e.combined_score = s)))
    ∧ ((trs.map SearchResult.id).Nodup → (irs.map SearchResult.id).Nodup →
        keysOf (mergePass trs irs tw iw) =
          trs.map SearchResult.id ++
            (irs.map SearchResult.id).filter
              (fun i => decide (i ∉ trs.map SearchResult.id))) := by
  refine ⟨?_, ?_, ?_⟩
  · exact List.Pairwise.sublist (List.take_sublist k _)
      (List.sorted_insertionSort fusedGE ((mergePass trs irs tw iw).map Prod.snd))
  · intro s
    exact filter_score_insertionSort s _
  · intro hT hI
    rw [keysOf_mergePass, newKeys_of_nodup _ [] hT]
    have h0 : (trs.map SearchResult.id).filter (fun x => decide (x ∉ ([] : List Int))) =
        trs.map SearchResult.id := by
      refine List.filter_eq_self.mpr ?_
      intro a _
      simp
    rw [h0, newKeys_of_nodup _ _ hI]

/-- C3 witness: one text hit (id 1) and one image hit (id 2); the merged key
order is the text id followed by the image id. -/
theorem fusion_sorted_stable_witness :
    keysOf (mergePass [⟨1, "a", "t", "d", "u", 0, 0, 1⟩] [⟨2, "b", "t", "d", "u", 0, 0, 1⟩]
      (7/10) (3/10)) = [1, 2] := by
  have h := (fusion_sorted_stable [⟨1, "a", "t", "d", "u", 0, 0, 1⟩]
    [⟨2, "b", "t", "d", "u", 0, 0, 1⟩] (7/10) (3/10) 2).2.2 (by simp) (by simp)
  rw [h]
  rfl

/-- Projection of a fused entry to its id (the `"id"` field carried over from
the contributing hit) and combined score. -/
def projFused (e : FusedResult) : Int × ℚ := (e.base.id, e.combined_score)

theorem filter_swap {α : Type} (p q : α → Bool) (l : List α) :
    (l.filter p).filter q = (l.filter q).filter p := by
  rw [List.filter_filter, List.filter_filter]
  exact List.filter_congr (fun x _ => Bool.and_comm _ _)

theorem not_mem_of_mem_newKeys :
    ∀ (l K : List Int) (x : Int), x ∈ newKeys K l → x ∉ K := by
  intro l
  induction l with
  | nil => intro K x hx; cases hx
  | cons k ks ih =>
    intro K x hx
    by_cases h : k ∈ K
    · rw [newKeys, if_pos h] at hx
      exact ih K x hx
    · rw [newKeys, if_neg h] at hx
      rcases List.mem_cons.mp hx with he | hm
      · exact he ▸ h
      · intro hK
        exact ih (K ++ [k]) x hm (List.mem_append.mpr (Or.inl hK))

theorem map_projFused_dictModify_zero (r : SearchResult) (m : List (Int × FusedResult)) :
    (dictModify r.id (imageUpdate 0 r) m).map (fun p => projFused p.2) =
      m.map (fun p => projFused p.2) := by
  induction m with
  | nil => rfl
  | cons p rest ih =>
    obtain ⟨k₀, v₀⟩ := p
    by_cases h : k₀ = r.id
    · simp [dictModify, h, imageUpdate, projFused]
    · simp [dictModify, h, ih]

/-- With `image_weight = 0` the image loop leaves every existing entry's id
and combined score unchanged and appends, for each fresh id, an entry with
combined score `0`. -/
theorem map_projFused_imageFold_zero :
    ∀ (irs : List SearchResult) (m : List (Int × FusedResult)),
      (irs.foldl (imageStep 0) m).map (fun p => projFused p.2) =
        m.map (fun p => projFused p.2) ++
          (newKeys (keysOf m) (irs.map SearchResult.id)).map (fun i => (i, (0 : ℚ))) := by
  intro irs
  induction irs with
  | nil => intro m; simp [newKeys]
  | cons r0 rest ih =>
    intro m
    rw [List.foldl_cons, List.map_cons]
    by_cases h : r0.id ∈ keysOf m
    · have hstep : imageStep 0 m r0 = dictModify r0.id (imageUpdate 0 r0) m := by
        unfold imageStep
        rw [if_pos ((dictGet_isSome_iff _ _).mpr h)]
      rw [hstep, ih, map_projFused_dictModify_zero, keysOf_dictModify]
      rw [newKeys, if_pos h]
    · have hnone : dictGet r0.id m = none := dictGet_eq_none_of_not_mem h
      have hstep : imageStep 0 m r0 = m ++ [(r0.id, imageEntry 0 r0)] := by
        unfold imageStep
        rw [hnone, if_neg (by simp)]
        exact dictSet_append_of_not_mem _ h
      rw [hstep, ih, keysOf_append]
      rw [newKeys, if_neg h]
      simp [projFused, imageEntry]

/-- Two lists that are both weakly descending on a rational key and agree on
the subsequence at every key value are equal (uniqueness of a stable sort's
output). -/
theorem eq_of_sorted_of_filter_key_eq {α : Type} (f : α → ℚ) :
    ∀ (A B : List α), List.Pairwise (fun a b => f b ≤ f a) A →
      List.Pairwise (fun a b => f b ≤ f a) B →
      (∀ s : ℚ, A.filter (fun e => decide (f e = s)) = B.filter (fun e => decide (f e = s))) →
      A = B := by
  intro A
  induction A with
  | nil =>
    intro B _ _ hfilt
    cases B with
    | nil => rfl
    | cons b B' =>
      exfalso
      have h := hfilt (f b)
      rw [List.filter_nil] at h
      have hb : b ∈ (b :: B').filter (fun e => decide (f e = f b)) :=
        List.mem_filter.mpr ⟨List.mem_cons_self b B', by simp⟩
      rw [← h] at hb
      cases hb
  | cons a A' ih =>
    intro B hA hB hfilt
    cases B with
    | nil =>
      exfalso
      have h := hfilt (f a)
      rw [List.filter_nil] at h
      have ha : a ∈ (a :: A').filter (fun e => decide (f e = f a)) :=
        List.mem_filter.mpr ⟨List.mem_cons_self a A', by simp⟩
      rw [h] at ha
      cases ha
    | cons b B' =>
      have hba : f b ≤ f a := by
        have h2 := hfilt (f b)
        have hbmem : b ∈ (a :: A').filter (fun e => decide (f e = f b)) := by
          rw [h2]
          exact List.mem_filter.mpr ⟨List.mem_cons_self b B', by simp⟩
        obtain ⟨hmem, _⟩ := List.mem_filter.mp hbmem
        rcases List.mem_cons.mp hmem with he | hm
        · exact le_of_eq (congrArg f he)
        · exact (List.pairwise_cons.mp hA).1 b hm
      have hab : f a ≤ f b := by
        have h1 := hfilt (f a)
        have hamem : a ∈ (b :: B').filter (fun e => decide (f e = f a)) := by
          rw [← h1]
          exact List.mem_filter.mpr ⟨List.mem_cons_self a A', by simp⟩
        obtain ⟨hmem, _⟩ := List.mem_filter.mp hamem
        rcases List.mem_cons.mp hmem with he | hm
        · exact le_of_eq (congrArg f he)
        · exact (List.pairwise_cons.mp hB).1 a hm
      have hfab : f a = f b := le_antisymm hab hba
      have h1 := hfilt (f a)
      have hLa : (a :: A').filter (fun e => decide (f e = f a)) =
          a :: A'.filter (fun e => decide (f e = f a)) := by
        simp [List.filter_cons]
      have hRb : (b :: B').filter (fun e => decide (f e = f a)) =
          b :: B'.filter (fun e => decide (f e = f a)) := by
        simp [List.filter_cons, hfab.symm]
      rw [hLa, hRb, List.cons.injEq] at h1
      obtain ⟨hhead, htail⟩ := h1
      have hrest : A' = B' := by
        refine ih B' hA.of_cons hB.of_cons ?_
        intro s
        by_cases hs : s = f a
        · rw [hs]
          exact htail
        · have hfa : ¬ (f a = s) := fun he => hs he.symm
          have hfb : ¬ (f b = s) := fun he => hs (hfab.trans he).symm
          have h := hfilt s
          have hL2 : (a :: A').filter (fun e => decide (f e = s)) =
              A'.filter (fun e => decide (f e = s)) := by
            simp [List.filter_cons, hfa]
          have hR2 : (b :: B').filter (fun e => decide (f e = s)) =
              B'.filter (fun e => decide (f e = s)) := by
            simp [List.filter_cons, hfb]
          rw [hL2, hR2] at h
          exact h
      rw [hhead, hrest]

theorem map_projFused_filter_id (p : Int → Bool) (l : List FusedResult) :
    (l.filter (fun e => p e.base.id)).map projFused =
      (l.map projFused).filter (fun q => p q.1) := by
  induction l with
  | nil => rfl
  | cons e rest ih =>
    by_cases h : p e.base.id
    · simp [List.filter_cons, projFused, h, ih]
    · simp [List.filter_cons, projFused, h, ih]

theorem map_projFused_filter_comb (s : ℚ) (l : List FusedResult) :
    (l.filter (fun e => decide (e.combined_score = s))).map projFused =
      (l.map projFused).filter (fun q => decide (q.2 = s)) := by
  induction l with
  | nil => rfl
  | cons e rest ih =>
    by_cases h : e.combined_score = s
    · simp only [List.filter_cons, List.map_cons]
      rw [if_pos (by simp [h]), if_pos (by simp [projFused, h])]
      simp [projFused, ih]
    · simp only [List.filter_cons, List.map_cons]
      rw [if_neg (by simp [h]), if_neg (by simp [projFused, h])]
      exact ih

/-- With `image_weight = 0` and duplicate-free text ids, the merged values
restricted to ids found by the text search project (id, combined score)-wise
exactly onto the text list with weighted scores. -/
theorem map_projFused_textPart (trs irs : List SearchResult) (tw : ℚ)
    (hT : (trs.map SearchResult.id).Nodup) :
    (((mergePass trs irs tw 0).map Prod.snd).filter
        (fun e => decide (e.base.id ∈ trs.map SearchResult.id))).map projFused =
      trs.map (fun r => (r.id, r.score * tw)) := by
  have hM0 : trs.foldl (textStep tw) [] = trs.map (fun r => (r.id, textEntry tw r)) := by
    have h := textFold_append_of_disjoint tw trs [] (by intro r _ hx; cases hx) hT
    simpa using h
  have hproj : (mergePass trs irs tw 0).map (fun p => projFused p.2) =
      trs.map (fun r => (r.id, r.score * tw)) ++
        (newKeys (trs.map SearchResult.id) (irs.map SearchResult.id)).map
          (fun i => (i, (0 : ℚ))) := by
    unfold mergePass
    rw [map_projFused_imageFold_zero irs _, hM0]
    have h1 : (trs.map (fun r => (r.id, textEntry tw r))).map (fun p => projFused p.2) =
        trs.map (fun r => (r.id, r.score * tw)) := by
      rw [List.map_map]
      rfl
    have h2 : keysOf (trs.map (fun r => (r.id, textEntry tw r))) = trs.map SearchResult.id := by
      unfold keysOf
      rw [List.map_map]
      rfl
    rw [h1, h2]
  have hvals : ((mergePass trs irs tw 0).map Prod.snd).map projFused =
      (mergePass trs irs tw 0).map (fun p => projFused p.2) := by
    rw [List.map_map]
    rfl
  rw [map_projFused_filter_id (fun i => decide (i ∈ trs.map SearchResult.id)), hvals, hproj,
    List.filter_append]
  have hkeep : (trs.map (fun r => (r.id, r.score * tw))).filter
      (fun q => decide (q.1 ∈ trs.map SearchResult.id)) =
      trs.map (fun r => (r.id, r.score * tw)) := by
    refine List.filter_eq_self.mpr ?_
    intro q hq
    obtain ⟨r, hr, hrq⟩ := List.mem_map.mp hq
    have : q.1 ∈ trs.map SearchResult.id := by
      rw [← hrq]
      exact List.mem_map_of_mem SearchResult.id hr
    simpa using this
  have hdrop : ((newKeys (trs.map SearchResult.id) (irs.map SearchResult.id)).map
      (fun i => (i, (0 : ℚ)))).filter (fun q => decide (q.1 ∈ trs.map SearchResult.id)) = [] := by
    refine List.filter_eq_nil_iff.mpr ?_
    intro q hq
    obtain ⟨i, hi, hiq⟩ := List.mem_map.mp hq
    have hnot := not_mem_of_mem_newKeys _ _ _ hi
    rw [← hiq]
    simpa using hnot
  rw [hkeep, hdrop, List.append_nil]

/-- C9: with `image_weight = 0` (duplicate-free text ids, text list sorted by
score descending as the store returns it, nonnegative text weight), the fused
ranking restricted to the ids present in the text list is the text-only
ranking itself, with combined scores `score * text_weight` unaffected by any
image score. -/
theorem fusion_zero_image_weight_neutral (trs irs : List SearchResult) (tw : ℚ)
    (hT : (trs.map SearchResult.id).Nodup)
    (hsc : trs.Pairwise (fun a b => b.score ≤ a.score)) (hw : 0 ≤ tw) :
    ((hybridRank trs irs tw 0).filter
        (fun e => decide (e.base.id ∈ trs.map SearchResult.id))).map projFused =
      trs.map (fun r => (r.id, r.score * tw)) := by
  have hS : List.Sorted fusedGE (hybridRank trs irs tw 0) :=
    List.sorted_insertionSort fusedGE _
  refine eq_of_sorted_of_filter_key_eq Prod.snd _ _ ?_ ?_ ?_
  · refine List.pairwise_map.mpr ?_
    refine (List.Pairwise.sublist (List.filter_sublist _) hS).imp ?_
    intro a b hab
    exact hab
  · refine List.pairwise_map.mpr ?_
    refine hsc.imp ?_
    intro a b hab
    exact mul_le_mul_of_nonneg_right hab hw
  · intro s
    have hstab : (hybridRank trs irs tw 0).filter (fun e => decide (e.combined_score = s)) =
        ((mergePass trs irs tw 0).map Prod.snd).filter
          (fun e => decide (e.combined_score = s)) :=
      filter_score_insertionSort s _
    calc ((((hybridRank trs irs tw 0).filter
            (fun e => decide (e.base.id ∈ trs.map SearchResult.id))).map projFused).filter
              (fun e => decide (e.2 = s)))
        = (((hybridRank trs irs tw 0).filter
            (fun e => decide (e.base.id ∈ trs.map SearchResult.id))).filter
              (fun e => decide (e.combined_score = s))).map projFused :=
          (map_projFused_filter_comb s _).symm
      _ = (((hybridRank trs irs tw 0).filter
            (fun e => decide (e.combined_score = s))).filter
              (fun e => decide (e.base.id ∈ trs.map SearchResult.id))).map projFused := by
          rw [filter_swap]
      _ = ((((mergePass trs irs tw 0).map Prod.snd).filter
            (fun e => decide (e.combined_score = s))).filter
              (fun e => decide (e.base.id ∈ trs.map SearchResult.id))).map projFused := by
          rw [hstab]
      _ = ((((mergePass trs irs tw 0).map Prod.snd).filter
            (fun e => decide (e.base.id ∈ trs.map SearchResult.id))).filter
              (fun e => decide (e.combined_score = s))).map projFused := by
          rw [filter_swap]
      _ = ((((mergePass trs irs tw 0).map Prod.snd).filter
            (fun e => decide (e.base.id ∈ trs.map SearchResult.id))).map projFused).filter
              (fun e => decide (e.2 = s)) := map_projFused_filter_comb s _
      _ = (trs.map (fun r => (r.id, r.score * tw))).filter (fun e => decide (e.2 = s)) := by
          rw [map_projFused_textPart trs irs tw hT]

/-- C9 witness: text list with ids 1, 2 (scores 1 and 1/2), an image hit for
id 2 and one for a fresh id 3; restricted to the text ids, the fused ranking
is the text ranking with weighted scores. -/
theorem fusion_zero_image_weight_neutral_witness :
    ((hybridRank [⟨1, "a", "t", "d", "u", 0, 0, 1⟩, ⟨2, "b", "t", "d", "u", 0, 0, 1/2⟩]
        [⟨2, "b", "t", "d", "u", 0, 0, 4/5⟩, ⟨3, "c", "t", "d", "u", 0, 0, 9/10⟩]
        (7/10) 0).filter
      (fun e => decide (e.base.id ∈
        ([⟨1, "a", "t", "d", "u", 0, 0, 1⟩,
          ⟨2, "b", "t", "d", "u", 0, 0, 1/2⟩] : List SearchResult).map SearchResult.id))).map
            projFused =
      [(1, 7/10), (2, 1/2 * (7/10))] := by
  have h := fusion_zero_image_weight_neutral
    [⟨1, "a", "t", "d", "u", 0, 0, 1⟩, ⟨2, "b", "t", "d", "u", 0, 0, 1/2⟩]
    [⟨2, "b", "t", "d", "u", 0, 0, 4/5⟩, ⟨3, "c", "t", "d", "u", 0, 0, 9/10⟩]
    (7/10) (by simp) (by norm_num) (by norm_num)
  rw [h]
  norm_num

/-- One raw record handed to `BaiChayTourismDAO.insert_data`: a Python dict,
so every field may be absent. -/
structure BCItem where
  id : Option Int
  name : Option String
  type : Option String
  sub_type : Option String
  location : Option String
  address : Option String
  description : Option String
  price_range : Option String
  price_min : Option ℚ
  price_max : Option ℚ
  opening_hours : Option String
  image_urls : Option String
  rating : Option ℚ
  view_count : Option Int
  url : Option String
  description_vector : Option (List ℚ)
deriving DecidableEq

/-- One persisted row of the `bai_chay_data` collection. -/
structure BCRow where
  id : Int
  name : String
  type : String
  sub_type : String
  location : String
  address : String
  description : String
  price_range : String
  price_min : ℚ
  price_max : ℚ
  opening_hours : String
  image_urls : String
  rating : ℚ
  view_count : Int
  url : String
  description_vector : List ℚ
deriving DecidableEq

/-- Validation loop of `BaiChayTourismDAO.insert_data`: asserts the presence
of `id, name, type, description, description_vector` and that the description
vector has length 768 — nothing else (in particular no price or rating check). -/
def bcValidate (it : BCItem) : Bool :=
  it.id.isSome && it.name.isSome && it.type.isSome && it.description.isSome &&
    it.description_vector.isSome && (it.description_vector.getD []).length == 768

/-- Column extraction of `BaiChayTourismDAO.insert_data`: required fields are
read directly, optional ones via `.get` with the code's defaults. -/
def bcToRow (it : BCItem) : BCRow :=
  { id := it.id.getD 0
    name := it.name.getD ""
    type := it.type.getD ""
    sub_type := it.sub_type.getD ""
    location := it.location.getD "Bãi Cháy, Quảng Ninh"
    address := it.address.getD ""
    description := it.description.getD ""
    price_range := it.price_range.getD ""
    price_min := it.price_min.getD 0
    price_max := it.price_max.getD 0
    opening_hours := it.opening_hours.getD ""
    image_urls := it.image_urls.getD "[]"
    rating := it.rating.getD 0
    view_count := it.view_count.getD 0
    url := it.url.getD ""
    description_vector := it.description_vector.getD [] }

/-- `BaiChayTourismDAO.insert_data`: validate every record of the batch first
(any failing assert aborts the whole call before any store write), then append
all rows to the store and return the primary keys in input order. -/
def bcInsert (store : List BCRow) (data : List BCItem) :
    Except String (List BCRow × List Int) :=
  if data.all bcValidate then
    Except.ok (store ++ data.map bcToRow, data.map (fun it => it.id.getD 0))
  else Except.error "Missing required field or wrong vector length"

/-- Whether `insert_data` succeeds on this batch. -/
def bcSucceeds (store : List BCRow) (data : List BCItem) : Bool :=
  match bcInsert store data with
  | Except.ok _ => true
  | Except.error _ => false

/-- Store contents as seen by the caller after the call: unchanged when the
batch was rejected. -/
def bcRun (store : List BCRow) (data : List BCItem) : List BCRow :=
  match bcInsert store data with
  | Except.ok (s, _) => s
  | Except.error _ => store

/-- Batch used against C7: every required field present, a correct 768-vector,
but `price_min > price_max` and `rating = 10 ∉ [0, 5]`. -/
def bcBadItem : BCItem :=
  { id := some 7
    name := some "Sun World"
    type := some "diem-den"
    sub_type := none
    location := none
    address := none
    description := some "park"
    price_range := none
    price_min := some 5
    price_max := some 1
    opening_hours := none
    image_urls := none
    rating := some 10
    view_count := none
    url := none
    description_vector := some (List.replicate 768 0) }

/-- C7 counterexample: a record with `price_min = 5 > 1 = price_max` and
`rating = 10` outside `[0, 5]` passes `insert_data`'s validation: the call
succeeds and the record is persisted (store grows from 0 to 1 entities),
where the claim demands a `ValidationError` with nothing persisted. -/
theorem bc_insert_accepts_bad_price_rating :
    bcSucceeds [] [bcBadItem] = true ∧ (bcRun [] [bcBadItem]).length = 1 ∧
      bcBadItem.price_min = some 5 ∧ bcBadItem.price_max = some 1 ∧
      bcBadItem.rating = some 10 := by
  have hval : bcValidate bcBadItem = true := by
    simp only [bcValidate, bcBadItem, Option.isSome_some, Option.getD_some,
      List.length_replicate, beq_self_eq_true, Bool.and_self, Bool.and_true, Bool.true_and]
  have hall : List.all [bcBadItem] bcValidate = true := by
    simp [hval]
  refine ⟨?_, ?_, rfl, rfl, rfl⟩
  · simp [bcSucceeds, bcInsert, hall]
  · simp [bcRun, bcInsert, hall]

/-- C7 (amended): `BaiChayTourismDAO.insert_data` fails exactly when some
record of the batch misses one of the required fields
`id, name, type, description, description_vector` or carries a description
vector whose length differs from 768 (it checks neither `price_min ≤
price_max` nor the rating range); on failure the whole batch is rejected
before any write, so the store is unchanged, and on success all rows are
appended. -/
theorem bc_insert_validation_exact (store : List BCRow) (data : List BCItem) :
    bcSucceeds store data = data.all bcValidate
    ∧ bcRun store data =
        (if data.all bcValidate then store ++ data.map bcToRow else store)
    ∧ (∀ it : BCItem, bcValidate it = true ↔
        (it.id.isSome ∧ it.name.isSome ∧ it.type.isSome ∧ it.description.isSome ∧
          it.description_vector.isSome ∧ (it.description_vector.getD []).length = 768)) := by
  refine ⟨?_, ?_, ?_⟩
  · by_cases h : data.all bcValidate <;> simp [bcSucceeds, bcInsert, h]
  · by_cases h : data.all bcValidate <;> simp [bcRun, bcInsert, h]
  · intro it
    simp [bcValidate, and_assoc]

/-- One raw record handed to `TourismMultimodalDAO.insert_data`. -/
structure MMItem where
  id : Option Int
  location : Option String
  type : Option String
  description : Option String
  image_url : Option String
  price : Option ℚ
  image_vector : Option (List ℚ)
  description_vector : Option (List ℚ)
deriving DecidableEq

/-- The display columns shared by the text and image collections
(everything except the vector field). -/
structure DisplayCols where
  id : Int
  location : String
  type : String
  description : String
  image_url : String
  price : ℚ
deriving DecidableEq

/-- One row of the `tourism_text_search` collection. -/
structure TextRow where
  cols : DisplayCols
  description_vector : List ℚ
deriving DecidableEq

/-- One row of the `tourism_image_search` collection. -/
structure ImageRow where
  cols : DisplayCols
  image_vector : List ℚ
deriving DecidableEq

/-- Validation loop of `TourismMultimodalDAO.insert_data`: all eight fields
required, image vector of length 512, description vector of length 768. -/
def mmValidate (it : MMItem) : Bool :=
  it.id.isSome && it.location.isSome && it.type.isSome && it.description.isSome &&
    it.image_url.isSome && it.price.isSome && it.image_vector.isSome &&
    it.description_vector.isSome &&
    (it.image_vector.getD []).length == 512 &&
    (it.description_vector.getD []).length == 768

/-- The shared columns (`ids, locations, types, descriptions, image_urls,
prices`) prepared once and inserted into both collections. -/
def mmDisplay (it : MMItem) : DisplayCols :=
  { id := it.id.getD 0
    location := it.location.getD ""
    type := it.type.getD ""
    description := it.description.getD ""
    image_url := it.image_url.getD ""
    price := it.price.getD 0 }

/-- `TourismMultimodalDAO.insert_data`: validate the whole batch, then append
the same display columns with the description vector to the text collection
and with the image vector to the image collection, returning both key lists. -/
def mmInsert (tstore : List TextRow) (istore : List ImageRow) (data : List MMItem) :
    Except String ((List TextRow × List ImageRow) × (List Int × List Int)) :=
  if data.all mmValidate then
    Except.ok
      ((tstore ++ data.map (fun it => ⟨mmDisplay it, it.description_vector.getD []⟩),
        istore ++ data.map (fun it => ⟨mmDisplay it, it.image_vector.getD []⟩)),
       (data.map (fun it => it.id.getD 0), data.map (fun it => it.id.getD 0)))
  else Except.error "Missing required field or wrong vector length"

/-- Both stores as the caller sees them after the call. -/
def mmRun (tstore : List TextRow) (istore : List ImageRow) (data : List MMItem) :
    List TextRow × List ImageRow :=
  match mmInsert tstore istore data with
  | Except.ok (stores, _) => stores
  | Except.error _ => (tstore, istore)

/-- C10: `TourismMultimodalDAO.insert_data` writes the same id and display
columns to both collections, differing only in the vector field; therefore if
the two collections' display projections agree before an insert they agree
after it (whether the batch is accepted or rejected), which is what makes
`id` a valid join key for `hybrid_search`. -/
theorem mm_insert_display_columns_agree (tstore : List TextRow) (istore : List ImageRow)
    (data : List MMItem)
    (hagree : tstore.map TextRow.cols = istore.map ImageRow.cols) :
    (data.map (fun it => (⟨mmDisplay it, it.description_vector.getD []⟩ : TextRow))).map
        TextRow.cols =
      (data.map (fun it => (⟨mmDisplay it, it.image_vector.getD []⟩ : ImageRow))).map
        ImageRow.cols
    ∧ (mmRun tstore istore data).1.map TextRow.cols =
        (mmRun tstore istore data).2.map ImageRow.cols := by
  have hnew : (data.map (fun it => (⟨mmDisplay it, it.description_vector.getD []⟩ : TextRow))).map
      TextRow.cols =
      (data.map (fun it => (⟨mmDisplay it, it.image_vector.getD []⟩ : ImageRow))).map
        ImageRow.cols := by
    rw [List.map_map, List.map_map]
    rfl
  refine ⟨hnew, ?_⟩
  unfold mmRun mmInsert
  by_cases h : data.all mmValidate
  · simp only [h, if_pos]
    show (tstore ++ _).map TextRow.cols = (istore ++ _).map ImageRow.cols
    rw [List.map_append, List.map_append, hagree, hnew]
  · simp only [h]
    show tstore.map TextRow.cols = istore.map ImageRow.cols
    exact hagree

/-- C10 witness: inserting one fully-populated record into two empty, trivially
agreeing collections keeps the display projections identical. -/
theorem mm_insert_display_columns_agree_witness :
    (mmRun [] [] [⟨some 7, some "Đà Nẵng", some "beach", some "d", some "u", some 0,
        some (List.replicate 512 0), some (List.replicate 768 0)⟩]).1.map TextRow.cols =
      (mmRun [] [] [⟨some 7, some "Đà Nẵng", some "beach", some "d", some "u", some 0,
        some (List.replicate 512 0), some (List.replicate 768 0)⟩]).2.map ImageRow.cols :=
  (mm_insert_display_columns_agree [] [] [⟨some 7, some "Đà Nẵng", some "beach", some "d",
    some "u", some 0, some (List.replicate 512 0), some (List.replicate 768 0)⟩] rfl).2
